import Mathlib

/-!
Verification of the multiclass-classification utilities of this repository
(notebook "4. Multiclass classification Solutions"): stable and naive softmax,
one-hot / label conversion, the cross-entropy-with-logits forward/backward
pair, and the multiclass logistic-regression prediction functions.

Matrices are embedded as lists of rows over the exact reals; numpy operations
that can raise (fancy indexing with out-of-bounds labels, broadcasting with
incompatible shapes, `np.eye` of a negative size, `np.max` of an empty array)
are embedded as `Option`-valued functions returning `none` on the error case.
Numpy's negative-index wrapping on fancy indexing is modelled faithfully.
-/

namespace MulticlassNB

/-- Numpy `argmax` scan: walk the list keeping the index of the first
strictly-largest element seen so far.  `i` is the index of the head of the
remaining list, `best` the index of the current maximum, `bv` its value. -/
def argmaxAux {α : Type} [LinearOrder α] : List α → Nat → Nat → α → Nat
  | [], _, best, _ => best
  | x :: xs, i, best, bv =>
      if bv < x then argmaxAux xs (i + 1) i x else argmaxAux xs (i + 1) best bv

/-- Numpy `np.argmax` of a vector: index of the first maximal entry. -/
def argmaxRow {α : Type} [LinearOrder α] : List α → Nat
  | [] => 0
  | x :: xs => argmaxAux xs 1 0 x

/-- Source `to_labels(one_hot)`: `np.argmax(one_hot, axis=-1)`. -/
noncomputable def to_labels (one_hot : List (List ℝ)) : List ℕ :=
  one_hot.map argmaxRow

/-- Row `i` of `np.eye(k)`: a unit vector of length `k` with a `1` at index `i`. -/
def eyeRow (k i : ℕ) : List ℝ :=
  (List.range k).map (fun j => if j = i then 1 else 0)

/-- Numpy fancy-index resolution into an axis of size `k`: indices in `[0, k)`
are taken as written, indices in `[-k, 0)` wrap to `k + j`, anything else
raises `IndexError` (modelled as `none`). -/
def npIndex (k : ℕ) (j : ℤ) : Option ℕ :=
  if 0 ≤ j ∧ j < (k : ℤ) then some j.toNat
  else if -(k : ℤ) ≤ j ∧ j < 0 then some ((k : ℤ) + j).toNat
  else none

/-- Map a fallible function over a list, failing if any element fails
(numpy fancy indexing raises on the first bad index). -/
def mapOrNone {α β : Type} (f : α → Option β) : List α → Option (List β)
  | [] => some []
  | x :: xs =>
      match f x, mapOrNone f xs with
      | some y, some ys => some (y :: ys)
      | _, _ => none

/-- Source `to_one_hot(labels, max_labels)` with an explicit class count:
`np.eye(max_labels)[labels]`. -/
def to_one_hot (labels : List ℤ) (max_labels : ℕ) : Option (List (List ℝ)) :=
  mapOrNone (fun j => (npIndex max_labels j).map (eyeRow max_labels)) labels

/-- Numpy `np.max` over an integer vector (total on nonempty lists; the
callers below guard the empty case, where numpy raises). -/
def npMax (l : List ℤ) : ℤ :=
  l.foldl max (l.headD 0)

/-- Source `to_one_hot(labels)` with `max_labels` omitted: infer
`max_labels = np.max(labels) + 1`.  `np.max` raises on an empty vector and
`np.eye` raises on a negative size. -/
def to_one_hot_inferred (labels : List ℤ) : Option (List (List ℝ)) :=
  if labels = [] then none
  else if npMax labels + 1 < 0 then none
  else to_one_hot labels (npMax labels + 1).toNat

/-- Per-row maximum, `np.max(logits, axis=1)` (total on nonempty rows;
numpy raises on an empty row). -/
noncomputable def rowMax (r : List ℝ) : ℝ :=
  r.foldl max (r.headD 0)

/-- One row of the stable softmax (source lines 226-228): subtract the row
maximum, exponentiate, divide by the row sum of exponentials. -/
noncomputable def softmaxRow (r : List ℝ) : List ℝ :=
  let exps := r.map (fun x => Real.exp (x - rowMax r))
  exps.map (fun e => e / exps.sum)

/-- Source stable `softmax(logits)`, applied row by row. -/
noncomputable def softmax (logits : List (List ℝ)) : List (List ℝ) :=
  logits.map softmaxRow

/-- One row of the first, naive softmax (source lines 119-122): exponentiate
directly and divide by the row sum of exponentials. -/
noncomputable def naiveSoftmaxRow (r : List ℝ) : List ℝ :=
  let exps := r.map Real.exp
  exps.map (fun e => e / exps.sum)

/-- Source naive `softmax(x)`, applied row by row. -/
noncomputable def naiveSoftmax (x : List (List ℝ)) : List (List ℝ) :=
  x.map naiveSoftmaxRow

/-- Numpy broadcast multiplication of two rows: elementwise when the lengths
agree, scalar broadcast when one side has length 1, error otherwise. -/
def bmulRow (a b : List ℝ) : Option (List ℝ) :=
  if a.length = b.length then some (List.zipWith (· * ·) a b)
  else if a.length = 1 then some (b.map (fun y => a.headD 0 * y))
  else if b.length = 1 then some (a.map (fun x => x * b.headD 0))
  else none

/-- Numpy broadcast multiplication of two matrices with the same number of
rows, broadcasting within each row. -/
def bmul (A B : List (List ℝ)) : Option (List (List ℝ)) :=
  if A.length = B.length then mapOrNone (fun p => bmulRow p.1 p.2) (A.zip B)
  else none

/-- Elementwise `np.log` of a matrix. -/
noncomputable def mlog (M : List (List ℝ)) : List (List ℝ) :=
  M.map (List.map Real.log)

/-- Source `_CrossEntropyWithLogits.forward(logits, targets)`:
`-np.sum(one_hot * np.log(softmax(logits)), axis=1)`, where `one_hot` is
`to_one_hot(targets)` with the class count inferred from the targets alone. -/
noncomputable def ce_with_logits_forward (logits : List (List ℝ)) (targets : List ℤ) :
    Option (List ℝ) :=
  (to_one_hot_inferred targets).bind (fun one_hot =>
    (bmul one_hot (mlog (softmax logits))).map (fun prod =>
      prod.map (fun r => -r.sum)))

/-- The cache stored by `forward`: `(softmax(logits), to_one_hot(targets))`. -/
noncomputable def ce_cache (logits : List (List ℝ)) (targets : List ℤ) :
    Option (List (List ℝ) × List (List ℝ)) :=
  (to_one_hot_inferred targets).map (fun one_hot => (softmax logits, one_hot))

/-- Source `_CrossEntropyWithLogits.backward(upstream_gradient)` on a cache
`(softmaxed, one_hot)` of matching shapes: the pair
`(upstream * (softmaxed * sum(one_hot, axis=1, keepdims) - one_hot),
  -upstream * log(softmaxed))`, both computed row by row with the upstream
gradient expanded to a column. -/
noncomputable def ce_backward (cache : List (List ℝ) × List (List ℝ)) (upstream : List ℝ) :
    List (List ℝ) × List (List ℝ) :=
  (List.zipWith (fun (p : List ℝ × List ℝ) u =>
      List.zipWith (fun s h => u * (s * p.2.sum - h)) p.1 p.2)
    (cache.1.zip cache.2) upstream,
   List.zipWith (fun u srow => srow.map (fun s => -u * Real.log s)) upstream cache.1)

/-- Column `j` of a weight matrix stored as a list of rows. -/
def matCol (W : List (List ℝ)) (j : ℕ) : List ℝ :=
  W.map (fun wrow => wrow.getD j 0)

/-- Matrix product `np.dot(X, W)` with `X` of shape samples x features and
`W` of shape features x classes. -/
def dotMM (X W : List (List ℝ)) : List (List ℝ) :=
  X.map (fun xrow =>
    (List.range (W.headD []).length).map
      (fun j => (List.zipWith (· * ·) xrow (matCol W j)).sum))

/-- Broadcast addition of the bias vector `b` to every row. -/
def addBias (M : List (List ℝ)) (b : List ℝ) : List (List ℝ) :=
  M.map (fun row => List.zipWith (· + ·) row b)

/-- Source `MulticlassLogisticRegression.predict_logits(X)`:
`g.add(g.dot(X, self.W), self.b)`, with the parameter state `(W, b)`
passed explicitly. -/
def predict_logits (X W : List (List ℝ)) (b : List ℝ) : List (List ℝ) :=
  addBias (dotMM X W) b

/-- Source `MulticlassLogisticRegression.predict_proba(X)`:
`softmax(self.predict_logits(X))`. -/
noncomputable def predict_proba (X W : List (List ℝ)) (b : List ℝ) : List (List ℝ) :=
  softmax (predict_logits X W b)

/-- Source `MulticlassLogisticRegression.predict(X)`:
`np.argmax(self.predict_logits(X), axis=1)`. -/
noncomputable def predict (X W : List (List ℝ)) (b : List ℝ) : List ℕ :=
  (predict_logits X W b).map argmaxRow

/-- Per-row subtraction of a column of per-row constants broadcast across
the columns: row `i` becomes `row - c i`. -/
def rowsSub (L : List (List ℝ)) (c : List ℝ) : List (List ℝ) :=
  List.zipWith (fun row ci => row.map (fun x => x - ci)) L c

/-! ### List arithmetic helpers -/

lemma sum_map_div (l : List ℝ) (c : ℝ) :
    (l.map (fun x => x / c)).sum = l.sum / c := by
  induction l with
  | nil => simp
  | cons x xs ih => simp [ih, add_div]

lemma sum_map_div_comp (r : List ℝ) (f : ℝ → ℝ) (c : ℝ) :
    (r.map (fun x => f x / c)).sum = (r.map f).sum / c := by
  induction r with
  | nil => simp
  | cons x xs ih => simp [ih, add_div]

lemma div_div_div_aux (a b c : ℝ) (hc : c ≠ 0) : a / c / (b / c) = a / b := by
  rcases eq_or_ne b 0 with rfl | hb
  · simp
  · field_simp

/-! ### Softmax row lemmas -/

lemma naiveSoftmaxRow_eq (r : List ℝ) :
    naiveSoftmaxRow r = r.map (fun x => Real.exp x / (r.map Real.exp).sum) := by
  simp only [naiveSoftmaxRow, List.map_map]
  rfl

lemma softmaxRow_eq (r : List ℝ) :
    softmaxRow r =
      r.map (fun x =>
        Real.exp (x - rowMax r) / (r.map (fun y => Real.exp (y - rowMax r))).sum) := by
  simp only [softmaxRow, List.map_map]
  rfl

lemma softmaxRow_eq_naive_shift (r : List ℝ) :
    softmaxRow r = naiveSoftmaxRow (r.map (fun x => x - rowMax r)) := by
  rw [softmaxRow_eq, naiveSoftmaxRow_eq, List.map_map, List.map_map]
  rfl

lemma naiveSoftmaxRow_shift (r : List ℝ) (c : ℝ) :
    naiveSoftmaxRow (r.map (fun x => x - c)) = naiveSoftmaxRow r := by
  rw [naiveSoftmaxRow_eq, naiveSoftmaxRow_eq, List.map_map]
  have hmap : r.map (Real.exp ∘ fun x => x - c) = r.map (fun x => Real.exp x / Real.exp c) := by
    apply List.map_congr_left
    intro a _
    simp [Real.exp_sub]
  refine List.map_congr_left (fun a _ => ?_)
  show Real.exp (a - c) / ((r.map fun x => x - c).map Real.exp).sum = _
  rw [List.map_map, hmap, Real.exp_sub, sum_map_div_comp,
    div_div_div_aux _ _ _ (Real.exp_ne_zero c)]

lemma softmaxRow_eq_naiveSoftmaxRow (r : List ℝ) : softmaxRow r = naiveSoftmaxRow r := by
  rw [softmaxRow_eq_naive_shift, naiveSoftmaxRow_shift]

lemma softmaxRow_shift (r : List ℝ) (c : ℝ) :
    softmaxRow (r.map (fun x => x - c)) = softmaxRow r := by
  rw [softmaxRow_eq_naiveSoftmaxRow, softmaxRow_eq_naiveSoftmaxRow, naiveSoftmaxRow_shift]

lemma sum_map_exp_pos (r : List ℝ) (g : ℝ → ℝ) (h : r ≠ []) :
    0 < (r.map (fun x => Real.exp (g x))).sum := by
  apply List.sum_pos
  · intro x hx
    rcases List.mem_map.1 hx with ⟨y, _, rfl⟩
    exact Real.exp_pos _
  · simpa using h

lemma softmaxRow_sum_one (r : List ℝ) (h : r ≠ []) : (softmaxRow r).sum = 1 := by
  have hpos := sum_map_exp_pos r (fun x => x - rowMax r) h
  simp only [softmaxRow]
  rw [sum_map_div]
  exact div_self (ne_of_gt hpos)

lemma softmaxRow_entry (r : List ℝ) (h : r ≠ []) (x : ℝ) (hx : x ∈ softmaxRow r) :
    0 < x ∧ x ≤ 1 := by
  have hpos := sum_map_exp_pos r (fun x => x - rowMax r) h
  rw [softmaxRow_eq] at hx
  rcases List.mem_map.1 hx with ⟨y, hy, rfl⟩
  constructor
  · exact div_pos (Real.exp_pos _) hpos
  · rw [div_le_one hpos]
    exact List.single_le_sum
      (fun z hz => by
        rcases List.mem_map.1 hz with ⟨w, _, rfl⟩
        exact (Real.exp_pos _).le) _
      (List.mem_map_of_mem _ hy)

lemma softmaxRow_length (r : List ℝ) : (softmaxRow r).length = r.length := by
  simp [softmaxRow]

/-! ### Claims C3, C4, C5 -/

/-- Claim C3: for every finite real matrix of logits whose rows are nonempty
(the domain on which the per-row maximum is defined), the stable softmax,
which subtracts the per-row maximum before exponentiating, computes the same
function as the naive softmax, which exponentiates directly and divides by
the per-row sum of exponentials. -/
theorem softmax_stable_eq_naive (L : List (List ℝ)) (h : ∀ r ∈ L, r ≠ []) :
    softmax L = naiveSoftmax L := by
  unfold softmax naiveSoftmax
  exact List.map_congr_left (fun r _ => softmaxRow_eq_naiveSoftmaxRow r)

/-- Witness for C3 at the concrete matrix `[[0, 1]]`. -/
theorem softmax_stable_eq_naive_witness :
    softmax [[(0 : ℝ), 1]] = naiveSoftmax [[(0 : ℝ), 1]] :=
  softmax_stable_eq_naive [[(0 : ℝ), 1]] (by simp)

/-- Counterexample to claim C4 as stated: for the one-column matrix `[[0]]`
the single softmax entry is exactly `1`, which does not lie in the open
interval `(0, 1)`. -/
theorem softmax_open_interval_counterexample :
    softmax [[(0 : ℝ)]] = [[1]] ∧
      ¬ (∀ row ∈ softmax [[(0 : ℝ)]], ∀ x ∈ row, 0 < x ∧ x < 1) := by
  have h1 : softmax [[(0 : ℝ)]] = [[1]] := by
    simp [softmax, softmaxRow, rowMax]
  refine ⟨h1, ?_⟩
  rw [h1]
  push_neg
  refine ⟨[1], by simp, 1, by simp, fun _ => le_refl 1⟩

/-- Claim C4 (amended): for every real matrix whose rows are nonempty, every
row of `softmax(L)` sums to 1 and every entry lies in the half-open interval
`(0, 1]` (entries do reach `1` for one-column matrices, so the open interval
`(0, 1)` of the original claim is corrected to `(0, 1]`). -/
theorem softmax_rows_sum_one_entries_unit (L : List (List ℝ)) (h : ∀ r ∈ L, r ≠ []) :
    ∀ row ∈ softmax L, row.sum = 1 ∧ ∀ x ∈ row, 0 < x ∧ x ≤ 1 := by
  intro row hrow
  rcases List.mem_map.1 hrow with ⟨r, hr, rfl⟩
  exact ⟨softmaxRow_sum_one r (h r hr), fun x hx => softmaxRow_entry r (h r hr) x hx⟩

/-- Witness for C4 (amended) at the concrete matrix `[[0, 1]]` and its
single softmax row. -/
theorem softmax_rows_sum_one_entries_unit_witness :
    (softmaxRow [(0 : ℝ), 1]).sum = 1 ∧ ∀ x ∈ softmaxRow [(0 : ℝ), 1], 0 < x ∧ x ≤ 1 :=
  softmax_rows_sum_one_entries_unit [[(0 : ℝ), 1]] (by simp)
    (softmaxRow [(0 : ℝ), 1]) (by simp [softmax])

/-- Claim C5: softmax is shift-invariant: for every real matrix `L` with
nonempty rows and every column `c` of per-row constants (one per row,
broadcast across the columns), `softmax(L - c) = softmax(L)`. -/
theorem softmax_shift_invariant (L : List (List ℝ)) (c : List ℝ)
    (hlen : c.length = L.length) (h : ∀ r ∈ L, r ≠ []) :
    softmax (rowsSub L c) = softmax L := by
  induction L generalizing c with
  | nil => cases c <;> simp [rowsSub, softmax]
  | cons r L ih =>
    cases c with
    | nil => simp at hlen
    | cons ci c' =>
      show softmax ((r.map fun x => x - ci) :: rowsSub L c') = softmax (r :: L)
      simp only [softmax, List.map_cons]
      rw [softmaxRow_shift]
      have htail := ih c' (by simpa using hlen) (fun s hs => h s (List.mem_cons_of_mem _ hs))
      simp only [softmax] at htail
      rw [htail]

/-- Witness for C5 at the concrete matrix `[[0, 1]]` and constant column `[5]`. -/
theorem softmax_shift_invariant_witness :
    softmax (rowsSub [[(0 : ℝ), 1]] [5]) = softmax [[(0 : ℝ), 1]] :=
  softmax_shift_invariant [[(0 : ℝ), 1]] [5] rfl (by simp)

/-! ### One-hot and argmax lemmas -/

lemma mapOrNone_cons {α β : Type} (f : α → Option β) (x : α) (xs : List α) :
    mapOrNone f (x :: xs) =
      match f x, mapOrNone f xs with
      | some y, some ys => some (y :: ys)
      | _, _ => none := rfl

lemma mapOrNone_cons_none {α β : Type} (f : α → Option β) (x : α) (xs : List α)
    (h : f x = none) : mapOrNone f (x :: xs) = none := by
  rw [mapOrNone_cons, h]

lemma mapOrNone_cons_some {α β : Type} (f : α → Option β) (x : α) (xs : List α)
    (y : β) (h : f x = some y) :
    mapOrNone f (x :: xs) = (mapOrNone f xs).map (fun ys => y :: ys) := by
  rw [mapOrNone_cons, h]
  cases mapOrNone f xs <;> rfl

lemma eyeRow_length (k i : ℕ) : (eyeRow k i).length = k := by
  simp [eyeRow]

lemma eyeRow_zero_succ (n : ℕ) : eyeRow (n + 1) 0 = 1 :: List.replicate n 0 := by
  rw [eyeRow, List.range_succ_eq_map, List.map_cons, List.map_map]
  have h0 : ((fun j => if j = 0 then (1 : ℝ) else 0) ∘ Nat.succ) = fun _ => (0 : ℝ) := by
    funext a
    simp [Function.comp, Nat.succ_ne_zero]
  rw [h0, List.map_const', List.length_range]
  simp

lemma eyeRow_succ_succ (n m : ℕ) : eyeRow (n + 1) (m + 1) = 0 :: eyeRow n m := by
  rw [eyeRow, List.range_succ_eq_map, List.map_cons, List.map_map]
  have h0 : ((fun j => if j = m + 1 then (1 : ℝ) else 0) ∘ Nat.succ)
      = fun j => if j = m then (1 : ℝ) else 0 := by
    funext a
    simp [Function.comp]
  rw [h0]
  simp [eyeRow]

lemma eyeRow_sum (k i : ℕ) (h : i < k) : (eyeRow k i).sum = 1 := by
  induction k generalizing i with
  | zero => omega
  | succ n ih =>
    cases i with
    | zero =>
      rw [eyeRow_zero_succ]
      simp
    | succ m =>
      rw [eyeRow_succ_succ]
      simp [ih m (by omega)]

lemma argmaxAux_of_le (l : List ℝ) : ∀ (i best : ℕ) (bv : ℝ), (∀ x ∈ l, x ≤ bv) →
    argmaxAux l i best bv = best := by
  induction l with
  | nil => intros; rfl
  | cons x xs ih =>
    intro i best bv h
    have hx : ¬ bv < x := not_lt.2 (h x (List.mem_cons_self _ _))
    simp only [argmaxAux, if_neg hx]
    exact ih _ _ _ (fun z hz => h z (List.mem_cons_of_mem _ hz))

lemma argmaxAux_eyeRow : ∀ (n m : ℕ), m < n → ∀ (s best : ℕ),
    argmaxAux (eyeRow n m) s best 0 = s + m := by
  intro n
  induction n with
  | zero => omega
  | succ n ih =>
    intro m hm s best
    cases m with
    | zero =>
      rw [eyeRow_zero_succ]
      simp only [argmaxAux, if_pos (by norm_num : (0 : ℝ) < 1)]
      rw [argmaxAux_of_le _ _ _ _
        (fun x hx => by rw [List.eq_of_mem_replicate hx]; norm_num)]
      omega
    | succ m =>
      rw [eyeRow_succ_succ]
      simp only [argmaxAux, if_neg (lt_irrefl (0 : ℝ))]
      rw [ih m (by omega) (s + 1) best]
      omega

lemma argmaxRow_eyeRow (k i : ℕ) (h : i < k) : argmaxRow (eyeRow k i) = i := by
  cases k with
  | zero => omega
  | succ n =>
    cases i with
    | zero =>
      rw [eyeRow_zero_succ]
      show argmaxAux (List.replicate n 0) 1 0 1 = 0
      exact argmaxAux_of_le _ _ _ _
        (fun x hx => by rw [List.eq_of_mem_replicate hx]; norm_num)
    | succ m =>
      rw [eyeRow_succ_succ]
      show argmaxAux (eyeRow n m) 1 0 0 = m + 1
      rw [argmaxAux_eyeRow n m (by omega)]
      omega

lemma foldl_max_init (l : List ℤ) : ∀ a : ℤ, a ≤ l.foldl max a := by
  induction l with
  | nil => intro a; simp
  | cons x xs ih => exact fun a => le_trans (le_max_left a x) (ih (max a x))

lemma le_npMax (l : List ℤ) (j : ℤ) (hj : j ∈ l) : j ≤ npMax l := by
  unfold npMax
  generalize l.headD 0 = a
  induction l generalizing a with
  | nil => simp at hj
  | cons x xs ih =>
    rcases List.mem_cons.1 hj with rfl | h
    · exact le_trans (le_max_right a j) (foldl_max_init xs _)
    · exact ih h (max a x)

lemma npMax_nonneg (l : List ℤ) (h1 : l ≠ []) (h2 : ∀ j ∈ l, 0 ≤ j) : 0 ≤ npMax l := by
  cases l with
  | nil => exact absurd rfl h1
  | cons x xs =>
    exact le_trans (h2 x (List.mem_cons_self _ _)) (le_npMax _ x (List.mem_cons_self _ _))

lemma npIndex_of_inrange (k : ℕ) (j : ℤ) (h : 0 ≤ j ∧ j < (k : ℤ)) :
    npIndex k j = some j.toNat := by
  simp [npIndex, h]

lemma to_one_hot_of_inrange (labels : List ℤ) (k : ℕ)
    (h : ∀ j ∈ labels, 0 ≤ j ∧ j < (k : ℤ)) :
    to_one_hot labels k = some (labels.map (fun j => eyeRow k j.toNat)) := by
  induction labels with
  | nil => rfl
  | cons j js ih =>
    have hj := h j (List.mem_cons_self _ _)
    have htail := ih (fun x hx => h x (List.mem_cons_of_mem _ hx))
    unfold to_one_hot at htail ⊢
    rw [mapOrNone_cons_some _ _ _ (eyeRow k j.toNat)
      (by rw [npIndex_of_inrange k j hj]; rfl), htail]
    rfl

lemma to_one_hot_inferred_of_nonneg (labels : List ℤ) (h1 : labels ≠ [])
    (h2 : ∀ j ∈ labels, 0 ≤ j) :
    to_one_hot_inferred labels =
      some (labels.map (fun j => eyeRow (npMax labels + 1).toNat j.toNat)) := by
  have hmax : 0 ≤ npMax labels := npMax_nonneg labels h1 h2
  unfold to_one_hot_inferred
  rw [if_neg h1, if_neg (by omega)]
  apply to_one_hot_of_inrange
  intro j hj
  have hle := le_npMax labels j hj
  exact ⟨h2 j hj, by omega⟩

/-! ### Claims C2, C7, C8 -/

/-- Claim C2: for every integer label vector whose values all lie in
`[0, num_classes)`, `to_labels (to_one_hot labels num_classes)` succeeds and
returns `labels`: one-hot encoding followed by per-row argmax is the
identity on in-range label vectors. -/
theorem to_labels_to_one_hot_roundtrip (labels : List ℤ) (num_classes : ℕ)
    (h : ∀ j ∈ labels, 0 ≤ j ∧ j < (num_classes : ℤ)) :
    (to_one_hot labels num_classes).map (fun M => (to_labels M).map Int.ofNat)
      = some labels := by
  rw [to_one_hot_of_inrange labels num_classes h]
  simp only [Option.map_some']
  congr 1
  simp only [to_labels, List.map_map]
  conv_rhs => rw [← List.map_id labels]
  apply List.map_congr_left
  intro j hj
  have hj' := h j hj
  simp only [Function.comp, id]
  rw [argmaxRow_eyeRow num_classes j.toNat (by omega)]
  simpa using Int.toNat_of_nonneg hj'.1

/-- Witness for C2 at `labels = [0, 2, 1]`, `num_classes = 3`. -/
theorem to_labels_to_one_hot_roundtrip_witness :
    (to_one_hot [(0 : ℤ), 2, 1] 3).map (fun M => (to_labels M).map Int.ofNat)
      = some [(0 : ℤ), 2, 1] :=
  to_labels_to_one_hot_roundtrip [(0 : ℤ), 2, 1] 3 (by decide)

/-- Counterexample to claim C7 as stated: the out-of-range (negative) label
`-1` with 3 classes is not reported as a failure; `np.eye(3)[[-1]]` silently
wraps the index and returns the one-hot row for class 2. -/
theorem to_one_hot_negative_label_counterexample :
    (-1 : ℤ) < 0 ∧ to_one_hot [(-1 : ℤ)] 3 = some [[(0 : ℝ), 0, 1]] := by
  constructor
  · norm_num
  · rfl

/-- Claim C7 (amended): `to_one_hot labels num_classes` reports a failure
(an `IndexError`) exactly when some label lies outside
`[-num_classes, num_classes)`; labels in `[-num_classes, -1]` are accepted
silently via numpy's negative-index wrapping, each such label `j` yielding
the one-hot row at position `num_classes + j` rather than an error. -/
theorem to_one_hot_failure_characterization (labels : List ℤ) (max_labels : ℕ) :
    to_one_hot labels max_labels =
      if ∀ j ∈ labels, -(max_labels : ℤ) ≤ j ∧ j < (max_labels : ℤ) then
        some (labels.map (fun j =>
          eyeRow max_labels (if j < 0 then ((max_labels : ℤ) + j).toNat else j.toNat)))
      else none := by
  induction labels with
  | nil => simp [to_one_hot, mapOrNone]
  | cons j js ih =>
    by_cases hj : -(max_labels : ℤ) ≤ j ∧ j < (max_labels : ℤ)
    · have hfj : (npIndex max_labels j).map (eyeRow max_labels) =
          some (eyeRow max_labels
            (if j < 0 then ((max_labels : ℤ) + j).toNat else j.toNat)) := by
        unfold npIndex
        by_cases hneg : j < 0
        · rw [if_neg (by omega), if_pos ⟨hj.1, hneg⟩, if_pos hneg]
          rfl
        · rw [if_pos ⟨by omega, hj.2⟩, if_neg hneg]
          rfl
      unfold to_one_hot at ih ⊢
      rw [mapOrNone_cons_some
        (fun j => (npIndex max_labels j).map (eyeRow max_labels)) j js _ hfj, ih]
      by_cases hall : ∀ x ∈ js, -(max_labels : ℤ) ≤ x ∧ x < (max_labels : ℤ)
      · have hcons : ∀ x ∈ j :: js, -(max_labels : ℤ) ≤ x ∧ x < (max_labels : ℤ) := by
          intro x hx
          rcases List.mem_cons.1 hx with rfl | hx'
          · exact hj
          · exact hall x hx'
        rw [if_pos hall, if_pos hcons]
        rfl
      · have hncons : ¬ ∀ x ∈ j :: js, -(max_labels : ℤ) ≤ x ∧ x < (max_labels : ℤ) :=
          fun hcontra => hall (fun x hx => hcontra x (List.mem_cons_of_mem _ hx))
        rw [if_neg hall, if_neg hncons]
        rfl
    · have hfj : (npIndex max_labels j).map (eyeRow max_labels) = none := by
        unfold npIndex
        rw [if_neg (by omega), if_neg (by omega)]
        rfl
      unfold to_one_hot
      have hncons : ¬ ∀ x ∈ j :: js, -(max_labels : ℤ) ≤ x ∧ x < (max_labels : ℤ) :=
        fun hcontra => hj (hcontra j (List.mem_cons_self _ _))
      rw [mapOrNone_cons_none
          (fun j => (npIndex max_labels j).map (eyeRow max_labels)) j js hfj,
        if_neg hncons]

/-- Counterexample to claim C8 as stated: for the non-empty label vector
`[-1]`, inference gives `max(labels) + 1 = 0` classes and `np.eye(0)[[-1]]`
raises an `IndexError` instead of returning a matrix of one-hot rows. -/
theorem to_one_hot_inferred_negative_counterexample :
    to_one_hot_inferred [(-1 : ℤ)] = none := rfl

/-- Claim C8 (amended): when `num_classes` is omitted and the non-empty
label vector contains only non-negative values, `to_one_hot` infers the
class count as `max(labels) + 1` and returns one row per label, each row the
unit vector `eyeRow` at index `labels[i]`, with exactly `max(labels) + 1`
columns (each row has that length and sums to 1). -/
theorem to_one_hot_inferred_nonneg_spec (labels : List ℤ) (h1 : labels ≠ [])
    (h2 : ∀ j ∈ labels, 0 ≤ j) :
    to_one_hot_inferred labels =
        some (labels.map (fun j => eyeRow ((npMax labels).toNat + 1) j.toNat)) ∧
      ∀ row ∈ labels.map (fun j => eyeRow ((npMax labels).toNat + 1) j.toNat),
        row.length = (npMax labels).toNat + 1 ∧ row.sum = 1 := by
  have hmax : 0 ≤ npMax labels := npMax_nonneg labels h1 h2
  have hcast : (npMax labels + 1).toNat = (npMax labels).toNat + 1 := by omega
  constructor
  · rw [to_one_hot_inferred_of_nonneg labels h1 h2, hcast]
  · intro row hrow
    rcases List.mem_map.1 hrow with ⟨j, hj, rfl⟩
    have hlt : j.toNat < (npMax labels).toNat + 1 := by
      have := le_npMax labels j hj
      omega
    exact ⟨eyeRow_length _ _, eyeRow_sum _ _ hlt⟩

/-- Witness for C8 (amended) at the notebook's example vector `[0, 1, 0, 3, 5]`. -/
theorem to_one_hot_inferred_nonneg_spec_witness :
    to_one_hot_inferred [(0 : ℤ), 1, 0, 3, 5] =
        some ([(0 : ℤ), 1, 0, 3, 5].map
          (fun j => eyeRow ((npMax [(0 : ℤ), 1, 0, 3, 5]).toNat + 1) j.toNat)) ∧
      ∀ row ∈ [(0 : ℤ), 1, 0, 3, 5].map
          (fun j => eyeRow ((npMax [(0 : ℤ), 1, 0, 3, 5]).toNat + 1) j.toNat),
        row.length = (npMax [(0 : ℤ), 1, 0, 3, 5]).toNat + 1 ∧ row.sum = 1 :=
  to_one_hot_inferred_nonneg_spec [(0 : ℤ), 1, 0, 3, 5] (by decide) (by decide)

/-! ### Cross-entropy lemmas -/

lemma ce_backward_mem (soft : List (List ℝ)) :
    ∀ (one_hot : List (List ℝ)) (upstream : List ℝ) (row : List ℝ),
      row ∈ (ce_backward (soft, one_hot) upstream).1 →
      ∃ p q c, p ∈ soft ∧ q ∈ one_hot ∧
        row = List.zipWith (fun a b => c * (a * q.sum - b)) p q := by
  induction soft with
  | nil =>
    intro oh u row hrow
    simp [ce_backward] at hrow
  | cons s S ih =>
    intro oh u row hrow
    cases oh with
    | nil => simp [ce_backward] at hrow
    | cons q H =>
      cases u with
      | nil => simp [ce_backward] at hrow
      | cons c U =>
        simp only [ce_backward, List.zip_cons_cons, List.zipWith_cons_cons] at hrow
        rcases List.mem_cons.1 hrow with rfl | hmem
        · exact ⟨s, q, c, List.mem_cons_self _ _, List.mem_cons_self _ _, rfl⟩
        · rcases ih H U row hmem with ⟨p, q', c', hp, hq', heq⟩
          exact ⟨p, q', c', List.mem_cons_of_mem _ hp, List.mem_cons_of_mem _ hq', heq⟩

lemma zipWith_grad_sum (c t : ℝ) : ∀ (p q : List ℝ), p.length = q.length →
    (List.zipWith (fun a b => c * (a * t - b)) p q).sum = c * (t * p.sum - q.sum) := by
  intro p
  induction p with
  | nil =>
    intro q hq
    cases q with
    | nil => simp
    | cons b q => simp at hq
  | cons a p ih =>
    intro q hq
    cases q with
    | nil => simp at hq
    | cons b q =>
      simp only [List.zipWith_cons_cons, List.sum_cons]
      rw [ih q (by simpa using hq)]
      ring

/-! ### Claims C1, C6 -/

/-- Claim C1 concerns a genuine bug in the code: on the one-sample batch with
logits `[[0, 0]]` and integer target vector `[0]`, `forward` calls
`to_one_hot(targets)` with the class count inferred from the targets alone
(`max([0]) + 1 = 1` class), so the one-hot matrix is `[[1]]` and numpy
broadcasting multiplies that single column against both log-softmax columns.
The returned loss is therefore `2 * log 2 ≈ 1.3863`, twice the cross-entropy
`-log(0.5) ≈ 0.6931` that the notebook's own loss formula (the negative log
of the probability assigned to the true class) prescribes. -/
theorem ce_forward_inferred_classes_bug :
    ce_with_logits_forward [[(0 : ℝ), 0]] [(0 : ℤ)] = some [2 * Real.log 2] ∧
      2 * Real.log 2 ≠ -Real.log (1 / 2) := by
  constructor
  · have hsm : softmax [[(0 : ℝ), 0]] = [[1 / 2, 1 / 2]] := by
      norm_num [softmax, softmaxRow, rowMax]
    have hoh : to_one_hot_inferred [(0 : ℤ)] = some [[(1 : ℝ)]] := rfl
    unfold ce_with_logits_forward
    rw [hoh, hsm]
    simp only [Option.some_bind]
    norm_num [mlog, bmul, bmulRow, mapOrNone, List.zip_cons_cons]
    rw [one_div, Real.log_inv]
    ring
  · have h2 : 0 < Real.log 2 := Real.log_pos (by norm_num)
    simp only [one_div, Real.log_inv, neg_neg]
    intro hcontra
    nlinarith

/-- Claim C6: for every batch of logits and nonempty in-range integer targets
whose inferred one-hot matrix has the same number of columns as the logits
(`max(targets) + 1` columns), the cache produced by `forward` exists, and for
every upstream gradient vector the gradient with respect to logits returned
by `backward` sums to zero across the class axis for each sample. -/
theorem ce_backward_dlogits_rows_sum_zero (logits : List (List ℝ)) (targets : List ℤ)
    (upstream : List ℝ) (h1 : targets ≠ []) (h2 : ∀ j ∈ targets, 0 ≤ j)
    (hcols : ∀ row ∈ logits, row.length = (npMax targets).toNat + 1) :
    ∃ S H, ce_cache logits targets = some (S, H) ∧
      ∀ row ∈ (ce_backward (S, H) upstream).1, row.sum = 0 := by
  have hmax : 0 ≤ npMax targets := npMax_nonneg targets h1 h2
  have hcast : (npMax targets + 1).toNat = (npMax targets).toNat + 1 := by omega
  refine ⟨softmax logits,
    targets.map (fun j => eyeRow ((npMax targets).toNat + 1) j.toNat), ?_, ?_⟩
  · unfold ce_cache
    rw [to_one_hot_inferred_of_nonneg targets h1 h2, hcast]
    rfl
  · intro row hrow
    rcases ce_backward_mem _ _ _ _ hrow with ⟨p, q, c, hp, hq, rfl⟩
    unfold softmax at hp
    rcases List.mem_map.1 hp with ⟨r, hr, rfl⟩
    rcases List.mem_map.1 hq with ⟨j, hj, rfl⟩
    have hrlen : r.length = (npMax targets).toNat + 1 := hcols r hr
    have hrne : r ≠ [] := by
      intro hcontra
      rw [hcontra] at hrlen
      simp at hrlen
    have hjlt : j.toNat < (npMax targets).toNat + 1 := by
      have := le_npMax targets j hj
      omega
    rw [zipWith_grad_sum c _ _ _
      (by rw [softmaxRow_length, hrlen, eyeRow_length])]
    rw [softmaxRow_sum_one r hrne, eyeRow_sum _ _ hjlt]
    ring

/-- Witness for C6 at logits `[[0, 1], [2, 3]]`, targets `[0, 1]`, upstream
gradient `[1, 2]`. -/
theorem ce_backward_dlogits_rows_sum_zero_witness :
    ∃ S H, ce_cache [[(0 : ℝ), 1], [2, 3]] [(0 : ℤ), 1] = some (S, H) ∧
      ∀ row ∈ (ce_backward (S, H) [(1 : ℝ), 2]).1, row.sum = 0 :=
  ce_backward_dlogits_rows_sum_zero [[(0 : ℝ), 1], [2, 3]] [(0 : ℤ), 1] [(1 : ℝ), 2]
    (by decide) (by decide)
    (by
      intro row hrow
      have h2 : (npMax [(0 : ℤ), 1]).toNat + 1 = 2 := by decide
      rw [h2]
      rcases List.mem_cons.1 hrow with rfl | hrow2
      · rfl
      · rcases List.mem_cons.1 hrow2 with rfl | h3
        · rfl
        · simp at h3)

/-! ### Claim C10 -/

lemma argmaxAux_map_mono (f : ℝ → ℝ) (hf : ∀ a b : ℝ, a < b ↔ f a < f b) :
    ∀ (l : List ℝ) (i best : ℕ) (bv : ℝ),
      argmaxAux (l.map f) i best (f bv) = argmaxAux l i best bv := by
  intro l
  induction l with
  | nil => intros; rfl
  | cons x xs ih =>
    intro i best bv
    by_cases hlt : bv < x
    · simp only [List.map_cons, argmaxAux, if_pos ((hf bv x).1 hlt), if_pos hlt]
      exact ih _ _ _
    · simp only [List.map_cons, argmaxAux, if_neg (fun hc => hlt ((hf bv x).2 hc)),
        if_neg hlt]
      exact ih _ _ _

lemma argmaxRow_map_mono (f : ℝ → ℝ) (hf : ∀ a b : ℝ, a < b ↔ f a < f b) (r : List ℝ) :
    argmaxRow (r.map f) = argmaxRow r := by
  cases r with
  | nil => rfl
  | cons x xs => exact argmaxAux_map_mono f hf xs 1 0 x

lemma argmaxRow_softmaxRow (r : List ℝ) (hne : r ≠ []) :
    argmaxRow (softmaxRow r) = argmaxRow r := by
  rw [softmaxRow_eq]
  apply argmaxRow_map_mono
  intro a b
  have hS := sum_map_exp_pos r (fun y => y - rowMax r) hne
  rw [div_lt_div_iff_of_pos_right hS, Real.exp_lt_exp, sub_lt_sub_iff_right]

/-- Claim C10: for every input feature matrix `X` and parameter state
`(W, b)` of `MulticlassLogisticRegression` whose resulting logit rows are
nonempty, `predict X` equals the per-row argmax of `predict_proba X`:
softmax preserves the location of the per-row first maximum. -/
theorem predict_eq_argmax_predict_proba (X W : List (List ℝ)) (b : List ℝ)
    (h : ∀ row ∈ predict_logits X W b, row ≠ []) :
    predict X W b = (predict_proba X W b).map argmaxRow := by
  unfold predict predict_proba softmax
  rw [List.map_map]
  apply List.map_congr_left
  intro r hr
  simp only [Function.comp]
  exact (argmaxRow_softmaxRow r (h r hr)).symm

/-- Witness for C10 at `X = [[1]]`, `W = [[1, 0]]`, `b = [0, 0]`. -/
theorem predict_eq_argmax_predict_proba_witness :
    predict [[(1 : ℝ)]] [[(1 : ℝ), 0]] [(0 : ℝ), 0]
      = (predict_proba [[(1 : ℝ)]] [[(1 : ℝ), 0]] [(0 : ℝ), 0]).map argmaxRow :=
  predict_eq_argmax_predict_proba [[(1 : ℝ)]] [[(1 : ℝ), 0]] [(0 : ℝ), 0]
    (by
      intro row hrow
      simp [predict_logits, dotMM, addBias, matCol, List.range_succ] at hrow
      subst hrow
      simp)

/-! ### Claim C9 -/

/-- Claim C9: on the extreme row `[[1000, 9, 8]]` the stable softmax never
overflows — every argument handed to the exponential is non-positive because
the row maximum is subtracted first — and, in the exact-arithmetic model in
which floating-point `NaN`/`Inf` cannot arise, the resulting row sums to 1
and is within `1/100` of `[1, 0, 0]`. -/
theorem softmax_extreme_values :
    (∀ x ∈ [(1000 : ℝ), 9, 8], x - rowMax [(1000 : ℝ), 9, 8] ≤ 0) ∧
    ∃ a b c : ℝ, softmax [[(1000 : ℝ), 9, 8]] = [[a, b, c]] ∧
      a + b + c = 1 ∧ 99 / 100 < a ∧ a ≤ 1 ∧
      0 < b ∧ b < 1 / 100 ∧ 0 < c ∧ c < 1 / 100 := by
  have hmax : rowMax [(1000 : ℝ), 9, 8] = 1000 := by
    norm_num [rowMax, max_def]
  have he1p : (0 : ℝ) < Real.exp (-991) := Real.exp_pos _
  have he2p : (0 : ℝ) < Real.exp (-992) := Real.exp_pos _
  have hS : (0 : ℝ) < 1 + (Real.exp (-991) + Real.exp (-992)) := by positivity
  have he1 : Real.exp (-991) ≤ 1 / 992 := by
    rw [Real.exp_neg, one_div]
    apply inv_anti₀ (by norm_num)
    have := Real.add_one_le_exp (991 : ℝ)
    linarith
  have he2 : Real.exp (-992) ≤ 1 / 993 := by
    rw [Real.exp_neg, one_div]
    apply inv_anti₀ (by norm_num)
    have := Real.add_one_le_exp (992 : ℝ)
    linarith
  have hsm : softmax [[(1000 : ℝ), 9, 8]] =
      [[1 / (1 + (Real.exp (-991) + Real.exp (-992))),
        Real.exp (-991) / (1 + (Real.exp (-991) + Real.exp (-992))),
        Real.exp (-992) / (1 + (Real.exp (-991) + Real.exp (-992)))]] := by
    simp only [softmax, List.map_cons, List.map_nil, softmaxRow, List.sum_cons,
      List.sum_nil, hmax]
    norm_num
  constructor
  · intro x hx
    rw [hmax]
    rcases List.mem_cons.1 hx with rfl | hx2
    · norm_num
    · rcases List.mem_cons.1 hx2 with rfl | hx3
      · norm_num
      · rcases List.mem_cons.1 hx3 with rfl | hx4
        · norm_num
        · simp at hx4
  · refine ⟨_, _, _, hsm, ?_, ?_, ?_, ?_, ?_, ?_, ?_⟩
    · rw [div_add_div_same, div_add_div_same, div_eq_one_iff_eq (ne_of_gt hS)]
      ring
    · rw [lt_div_iff₀ hS]
      nlinarith
    · rw [div_le_one hS]
      linarith
    · exact div_pos he1p hS
    · rw [div_lt_iff₀ hS]
      nlinarith
    · exact div_pos he2p hS
    · rw [div_lt_iff₀ hS]
      nlinarith

end MulticlassNB
